import Mathlib

/-!
Shallow embedding of the `renamer` command-line utility
(`src/unnamed/part_000`, the current `app.js`, v0.1.2-alpha).

Modelling conventions:
* JavaScript strings are `List Char` (`JStr`); filesystem paths are lists of
  path components (`FPath`), so `path.join dir name` is `dir ++ [name]`.
* The filesystem is an explicit tree (`FSTree`), a node being either a regular
  file or a directory with an ordered entry list (the order `fs.readdir`
  returns).  `FSTree`/`FSEntries` are a mutually inductive pair so that all
  functions over them are structurally recursive and kernel-computable.
* JavaScript number-to-string interpolation of a nonnegative integer is the
  standard base-10 rendering (`natChars`).
* Stateful operations (rename/copy/mkdir/spawn) are modelled by the list of
  effects they perform, in order; a `try/catch` with the `--force`
  (continue-on-error) policy is modelled by explicit success/failure plumbing.
-/

/-! ## Definitions -/

/-- A JavaScript string, as a list of characters. -/
abbrev JStr := List Char

/-- A filesystem path, as a list of path components. -/
abbrev FPath := List JStr

/-- Models `s.startsWith(pre)` of JavaScript. -/
def jsStartsWith (pre s : JStr) : Bool := List.isPrefixOf pre s

/-- Models `s.includes(pat)` of JavaScript: `pat` occurs contiguously in `s`. -/
def jsIncludes (pat : JStr) : JStr → Bool
  | [] => List.isPrefixOf pat []
  | c :: rest => List.isPrefixOf pat (c :: rest) || jsIncludes pat rest

/-- Models `s.toLowerCase()` of JavaScript, on the ASCII letters the tool deals with. -/
def jsToLower (s : JStr) : JStr := s.map Char.toLower

/-- Models `s.replace(pat, repl)` of JavaScript with a string pattern: replace the
first occurrence of `pat` (for the empty pattern, insert `repl` in front). -/
def replaceFirst (pat repl : JStr) : JStr → JStr
  | [] => if List.isPrefixOf pat [] then repl ++ List.drop pat.length [] else []
  | c :: rest =>
    if List.isPrefixOf pat (c :: rest) then repl ++ List.drop pat.length (c :: rest)
    else c :: replaceFirst pat repl rest

/-- Models `path.extname` of Node on a basename: the substring from the last `'.'` to
the end, unless that dot is the first character (or there is none). -/
def extname (s : JStr) : JStr :=
  match s.reverse.findIdx? (fun c => c = '.') with
  | none => []
  | some k => if k + 1 = s.length then [] else s.drop (s.length - 1 - k)

/-- Models `path.basename` on a component-list path. -/
def pathBase (p : FPath) : JStr := p.getLastD []

/-- Base-10 digit rendering with explicit fuel (structural, so that the kernel
can evaluate it).  Models the decimal rendering JavaScript's template
interpolation performs on a nonnegative integer. -/
def natCharsAux : Nat → Nat → JStr
  | 0, _ => []
  | fuel + 1, n =>
    if n < 10 then [Nat.digitChar n]
    else natCharsAux fuel (n / 10) ++ [Nat.digitChar (n % 10)]

/-- Base-10 rendering of a natural number, most significant digit first. -/
def natChars (n : Nat) : JStr := natCharsAux (n + 1) n

/-- Function `pad2` of the source: left-pad to two digits with `'0'`. -/
def pad2 (n : Nat) : JStr :=
  if n < 10 then '0' :: natChars n else natChars n

/-- Function `pad3` of the source. -/
def pad3 (n : Nat) : JStr :=
  if n < 10 then '0' :: '0' :: natChars n
  else if n < 100 then '0' :: natChars n
  else natChars n

/-- Function `pad4` of the source. -/
def pad4 (n : Nat) : JStr :=
  if n < 10 then '0' :: '0' :: '0' :: natChars n
  else if n < 100 then '0' :: '0' :: natChars n
  else if n < 1000 then '0' :: natChars n
  else natChars n

/-- Spec-side zero padding: the decimal digits left-padded with `'0'` to
width `w` (wider values are kept whole). -/
def zeroPad (w n : Nat) : JStr :=
  List.replicate (w - (natChars n).length) '0' ++ natChars n

/-- Function `get_season_episode_for_file_index` of the source. -/
def get_season_episode_for_file_index (index season : Nat) (ext : JStr) : JStr :=
  ['S'] ++ pad2 season ++ ['E'] ++ pad2 index ++ ext

/-- Function `get_simple_filename_index` of the source. -/
def get_simple_filename_index (pre : JStr) (index : Nat) (ext : JStr) : JStr :=
  pre ++ pad4 index ++ ext

/-- Function `get_ordered_filename` of the source. -/
def get_ordered_filename (season index : Nat) (pre : JStr) (tv_show_mode : Bool)
    (ext : JStr) : JStr :=
  if tv_show_mode then get_season_episode_for_file_index index season ext
  else get_simple_filename_index pre index ext

/-- The per-file name computation of `remove` (the substitution-rename
workflow): if the name starts with `pre`, replace the first occurrence of
`pre` with `repl`; then if the original name contains `suf`, remove the first
occurrence of `suf` from the (possibly already rewritten) name. -/
def substituted_name (file pre repl suf : JStr) : JStr :=
  let n1 := if jsStartsWith pre file then replaceFirst pre repl file else file
  if jsIncludes suf file then replaceFirst suf [] n1 else n1

/-! ## Filesystem model and the directory walker (`get_files`) -/

mutual
/-- A filesystem node: a regular file, or a directory with an ordered entry
list (the order `fs.readdir` returns, not guaranteed sorted). -/
inductive FSTree where
  | file : FSTree
  | dir : FSEntries → FSTree
deriving DecidableEq

/-- A directory's entry list: name plus subtree, in listing order.  (A
mutually inductive list so that recursion over trees is structural.) -/
inductive FSEntries where
  | nil : FSEntries
  | cons : JStr → FSTree → FSEntries → FSEntries
deriving DecidableEq
end

/-- Build an entry list from an ordinary Lean list. -/
def entriesOf : List (JStr × FSTree) → FSEntries
  | [] => .nil
  | (n, t) :: rest => .cons n t (entriesOf rest)

/-- View an entry list as an ordinary Lean list. -/
def FSEntries.toList : FSEntries → List (JStr × FSTree)
  | .nil => []
  | .cons n t rest => (n, t) :: rest.toList

/-- The body of `get_files` over one directory listing: for each entry, skip
dotfiles when `sd` is set; files go to the file list; directories always go to
the directory list, and when `rc` (recurse) is set the child's lists are
merged in at the entry's position, the child directory itself first. -/
def walk_dir : FSEntries → FPath → Bool → Bool → List FPath × List FPath
  | .nil, _, _, _ => ([], [])
  | .cons n t rest, p, sd, rc =>
    let tail := walk_dir rest p sd rc
    if jsStartsWith ['.'] n && sd then tail
    else
      match t with
      | .file => ((p ++ [n]) :: tail.1, tail.2)
      | .dir cs =>
        if rc then
          let child := walk_dir cs (p ++ [n]) sd rc
          (child.1 ++ tail.1, (p ++ [n]) :: (child.2 ++ tail.2))
        else (tail.1, (p ++ [n]) :: tail.2)

/-- Function `get_files(dir, skip_dot, recurse, force)` of the source.  Listing a
non-directory root fails (`readdir` throws), yielding `none`.  Stat calls
cannot fail in this explicit-tree model, so the `force` (continue-on-error)
parameter does not influence the result and is omitted here; the
continue-on-error policy is modelled where failures can happen (see
`rename_loop` and the reconciliation functions below). -/
def get_files (t : FSTree) (p : FPath) (skip_dot recurse : Bool) :
    Option (List FPath × List FPath) :=
  match t with
  | .file => none
  | .dir es => some (walk_dir es p skip_dot recurse)

/-- Spec-side description of the non-recursive walk: the non-skipped
first-level file entries, in listing order. -/
def level1_files (es : FSEntries) (p : FPath) (sd : Bool) : List FPath :=
  es.toList.filterMap (fun e =>
    if jsStartsWith ['.'] e.1 && sd then none
    else match e.2 with
      | .file => some (p ++ [e.1])
      | .dir _ => none)

/-- Spec-side description of the non-recursive walk: the non-skipped
first-level directory entries, in listing order. -/
def level1_dirs (es : FSEntries) (p : FPath) (sd : Bool) : List FPath :=
  es.toList.filterMap (fun e =>
    if jsStartsWith ['.'] e.1 && sd then none
    else match e.2 with
      | .file => none
      | .dir _ => some (p ++ [e.1]))

/-- Spec-side description of the recursive walk: every file at every depth in
depth-first pre-order over the listing, with the dotfile-skip policy applied
at every level (a skipped dot directory is pruned whole). -/
def spec_preorder_files : FSEntries → FPath → Bool → List FPath
  | .nil, _, _ => []
  | .cons n t rest, p, sd =>
    (if jsStartsWith ['.'] n && sd then []
     else match t with
       | .file => [p ++ [n]]
       | .dir cs => spec_preorder_files cs (p ++ [n]) sd)
    ++ spec_preorder_files rest p sd

/-- Spec-side description of the recursive walk: every directory at every
depth in depth-first pre-order (each directory before its descendants), with
the dotfile-skip policy applied at every level. -/
def spec_preorder_dirs : FSEntries → FPath → Bool → List FPath
  | .nil, _, _ => []
  | .cons n t rest, p, sd =>
    (if jsStartsWith ['.'] n && sd then []
     else match t with
       | .file => []
       | .dir cs => (p ++ [n]) :: spec_preorder_dirs cs (p ++ [n]) sd)
    ++ spec_preorder_dirs rest p sd

/-- The per-item loop of `rename_by_file_order` (the same `try`/`catch`
pattern every orchestrator uses): each item's operation either succeeds or
throws (abstracted by `fails`).  Returns the items on which the operation was
attempted, the items whose failure was logged, and whether the loop ran to
completion (`false` means the exception propagated out of the workflow, to be
logged once more by `main` before the process ends after cleanup). -/
def rename_loop (force : Bool) (fails : FPath → Bool) :
    List FPath → List FPath × List FPath × Bool
  | [] => ([], [], true)
  | f :: rest =>
    if fails f then
      if force then
        let r := rename_loop force fails rest
        (f :: r.1, f :: r.2.1, r.2.2)
      else ([f], [f], false)
    else
      let r := rename_loop force fails rest
      (f :: r.1, r.2.1, r.2.2)

/-- The filesystem-level effects of a run: logged `src => dest` pairs, moves
actually performed (`fs.renameSync`), and copies actually performed
(`fs.copyFileSync`), each in execution order. -/
structure Fx where
  logs : List (FPath × FPath)
  moves : List (FPath × FPath)
  copies : List (FPath × FPath)
deriving DecidableEq

/-- Sequencing of effects. -/
def Fx.append (a b : Fx) : Fx :=
  ⟨a.logs ++ b.logs, a.moves ++ b.moves, a.copies ++ b.copies⟩

/-- Function `copy_file` of the source: logs `src => dest` unconditionally, copies only
when dry-run is off. -/
def copy_file_fx (dryrun : Bool) (src dst : FPath) : Fx :=
  { logs := [(src, dst)], moves := [],
    copies := if dryrun then [] else [(src, dst)] }

/-- Function `rename` of the source: in copy mode delegates to `copy_file`; otherwise
logs `src => dest` unconditionally and moves only when dry-run is off. -/
def rename_fx (copyMode dryrun : Bool) (src dst : FPath) : Fx :=
  if copyMode then copy_file_fx dryrun src dst
  else { logs := [(src, dst)], moves := if dryrun then [] else [(src, dst)],
         copies := [] }

/-- The destination basename `rename_by_file_order` computes for one file:
`get_ordered_filename` applied to the file's extension lower-cased
(`path.extname(file).toLowerCase()`). -/
def rbfo_dest_name (season idx : Nat) (pre : JStr) (tv : Bool) (f : FPath) : JStr :=
  get_ordered_filename season idx pre tv (jsToLower (extname (pathBase f)))

/-- The effect loop of `rename_by_file_order`, indices counting up from the
starting offset. -/
def rbfo_fx_go (dest_dir : FPath) (season : Nat) (pre : JStr)
    (tv copyMode dryrun : Bool) : Nat → List FPath → Fx
  | _, [] => ⟨[], [], []⟩
  | idx, f :: rest =>
    Fx.append
      (rename_fx copyMode dryrun f (dest_dir ++ [rbfo_dest_name season idx pre tv f]))
      (rbfo_fx_go dest_dir season pre tv copyMode dryrun (idx + 1) rest)

/-- The effects of a whole `rename_by_file_order` run over the enumerated
files. -/
def rename_by_file_order_fx (files : List FPath) (dest_dir : FPath)
    (season offset : Nat) (pre : JStr) (tv copyMode dryrun : Bool) : Fx :=
  rbfo_fx_go dest_dir season pre tv copyMode dryrun offset files

/-- Spec-side list of planned `(src, dest)` pairs: one per enumerated file,
indices starting at the offset and incrementing by one in enumeration order. -/
def planned_pairs (dest_dir : FPath) (season : Nat) (pre : JStr) (tv : Bool) :
    Nat → List FPath → List (FPath × FPath)
  | _, [] => []
  | idx, f :: rest =>
    (f, dest_dir ++ [rbfo_dest_name season idx pre tv f])
      :: planned_pairs dest_dir season pre tv (idx + 1) rest

/-- Existence of paths after performing one move. -/
def apply_move (e : FPath → Bool) (md : FPath × FPath) : FPath → Bool :=
  fun q => if q = md.2 then e md.1 else if q = md.1 then false else e q

/-- Existence of paths after performing one copy. -/
def apply_copy (e : FPath → Bool) (cd : FPath × FPath) : FPath → Bool :=
  fun q => if q = cd.2 then e cd.1 else e q

/-- Existence of paths after performing all of a run's moves and copies. -/
def apply_fx (fx : Fx) (e : FPath → Bool) : FPath → Bool :=
  fx.copies.foldl apply_copy (fx.moves.foldl apply_move e)

/-- The rename plan of the `remove` workflow over a directory listing
(name/kind pairs in listing order): directories are skipped; a file whose
`substituted_name` equals its current name is skipped (`Nothing to do`);
otherwise the `(source, destination)` pair is planned and executed. -/
def remove_plan (entries : List (JStr × FSTree)) (pre repl suf : JStr) :
    List (JStr × JStr) :=
  entries.filterMap (fun e =>
    match e.2 with
    | .dir _ => none
    | .file =>
      let n := substituted_name e.1 pre repl suf
      if n = e.1 then none else some (e.1, n))

/-- The directory listing produced by one `remove` run: every file carries its
substituted name, directories are untouched. -/
def remove_result (entries : List (JStr × FSTree)) (pre repl suf : JStr) :
    List (JStr × FSTree) :=
  entries.map (fun e =>
    match e.2 with
    | .dir cs => (e.1, FSTree.dir cs)
    | .file => (substituted_name e.1 pre repl suf, FSTree.file))

/-- The fixed `!extract` folder name of the layout convention. -/
def bangExtract : JStr := "!extract".toList

/-- Name lookup in a directory listing (how a path component is resolved on a
real filesystem, where listing names are unique). -/
def lookupEntry (n : JStr) : FSEntries → Option FSTree
  | .nil => none
  | .cons m t rest => if m = n then some t else lookupEntry n rest

/-- Resolve a component path against the filesystem tree rooted at `root`:
`none` models a path that does not exist (`fs.existsSync` false / `ENOENT`). -/
def resolve : FPath → FSTree → Option FSTree
  | [], t => some t
  | n :: rest, .dir es =>
    match lookupEntry n es with
    | some t => resolve rest t
    | none => none
  | _ :: _, .file => none

/-- Function `file_count(dir)` of the source: the number of files `get_files` finds
under the path, with the run's skip-dot and recurse flags; `none` when the
path does not exist or is not a directory (`readdir` throws). -/
def file_count (root : FSTree) (p : FPath) (sd rc : Bool) : Option Nat :=
  match resolve p root with
  | some (.dir es) => some (walk_dir es p sd rc).1.length
  | _ => none

/-- What one `check_one_extract_folder` call does: push the basename onto the
missing list, push it onto the content-mismatch list, push nothing, or throw
(counting a non-directory counterpart throws inside `file_count`). -/
inductive CheckOutcome where
  | pushMissing
  | pushMismatch
  | noPush
  | err
deriving DecidableEq

/-- Function `check_one_extract_folder` of the source: look up the basename
under the extract path; if absent, record `bn` as missing; otherwise compare
the counterpart's file count with `source_count + 1` and record `bn` as a
content mismatch on inequality. -/
def check_one_extract_folder (root : FSTree) (bn : JStr) (source_count : Nat)
    (ep : FPath) (sd rc : Bool) : CheckOutcome :=
  let efp := ep ++ [bn]
  match resolve efp root with
  | none => .pushMissing
  | some _ =>
    match file_count root efp sd rc with
    | none => .err
    | some c => if source_count + 1 ≠ c then .pushMismatch else .noPush

/-- Outcome of one iteration of `check_incoming`'s directory loop: the
source count is the directory's own file count. -/
def dir_outcome (root : FSTree) (sd rc : Bool) (ep : FPath) (p : FPath) :
    CheckOutcome :=
  match file_count root p sd rc with
  | none => .err
  | some n => check_one_extract_folder root (pathBase p) n ep sd rc

/-- Outcome of one iteration of `check_incoming`'s file loop: the source
count of a plain file is 1. -/
def file_outcome (root : FSTree) (sd rc : Bool) (ep : FPath) (p : FPath) :
    CheckOutcome :=
  check_one_extract_folder root (pathBase p) 1 ep sd rc

/-- The shared shape of `check_incoming`'s two `for`/`try` loops: process the
paths in order, accumulating the missing and content-mismatch basenames; an
`err` outcome is swallowed when `force` (continue-on-error) is set and aborts
the workflow (`none`) otherwise. -/
def check_loop (outcome : FPath → CheckOutcome) (force : Bool) :
    List FPath → Option (List JStr × List JStr)
  | [] => some ([], [])
  | p :: rest =>
    match outcome p with
    | .err => if force then check_loop outcome force rest else none
    | .pushMissing =>
      (check_loop outcome force rest).map (fun r => (pathBase p :: r.1, r.2))
    | .pushMismatch =>
      (check_loop outcome force rest).map (fun r => (r.1, pathBase p :: r.2))
    | .noPush => check_loop outcome force rest

/-- Function `check_incoming` of the source: list the incoming root (throwing — `none`
— if it is not a directory), run the directory loop then the file loop
against `{root}/!extract`, and return the accumulated missing and
content-mismatch lists (directory pushes first, as in the source). -/
def check_incoming (root : FSTree) (sd rc force : Bool) :
    Option (List JStr × List JStr) :=
  match root with
  | .file => none
  | .dir es =>
    let ep : FPath := [bangExtract]
    let fd := walk_dir es [] sd rc
    match check_loop (dir_outcome root sd rc ep) force fd.2 with
    | none => none
    | some r1 =>
      match check_loop (file_outcome root sd rc ep) force fd.1 with
      | none => none
      | some r2 => some (r1.1 ++ r2.1, r1.2 ++ r2.2)

/-- The report emitted at the end of `check_incoming`: each list preceded by
its header, and only emitted when non-empty. -/
def report_lines (m mm : List JStr) : List JStr :=
  (if m.isEmpty then [] else "Folders missing from !extract:".toList :: m)
  ++ (if mm.isEmpty then []
      else "Folders in !extract with missing content:".toList :: mm)

/-- The source count `check_incoming` uses for an entry of the incoming root:
for a plain file it is 1, for a directory it is the number of files
`get_files` finds under it. -/
def entry_source_count (n : JStr) (t : FSTree) (sd rc : Bool) : Nat :=
  match t with
  | .file => 1
  | .dir cs => (walk_dir cs [n] sd rc).1.length

/-- Spec-side per-entry push test, used to characterize the accumulated
lists: for a non-skipped entry of the matching kind, whether its loop
iteration pushes the basename under the given outcome. -/
def entry_push (es : FSEntries) (sd : Bool) (isDir : Bool)
    (target : CheckOutcome) : (JStr × FSTree) → Option JStr := fun e =>
  if jsStartsWith ['.'] e.1 && sd then none
  else
    match e.2, isDir with
    | .dir _, true =>
      if dir_outcome (.dir es) sd false [bangExtract] [e.1] = target then some e.1
      else none
    | .file, false =>
      if file_outcome (.dir es) sd false [bangExtract] [e.1] = target then some e.1
      else none
    | _, _ => none

/-- The reconciliation fixture of the spec: `Alpha` holds 3 files and
`!extract/Alpha` holds 4 (3 + 1 marker). -/
def fixture_incoming : FSEntries := entriesOf
  [("Alpha".toList, .dir (entriesOf
      [("a1".toList, .file), ("a2".toList, .file), ("a3".toList, .file)])),
   (bangExtract, .dir (entriesOf
      [("Alpha".toList, .dir (entriesOf
        [("a1".toList, .file), ("a2".toList, .file), ("a3".toList, .file),
         ("marker".toList, .file)]))]))]

/-- An incoming root whose only entry is an empty `!extract` folder. -/
def fixture_only_extract : FSEntries := entriesOf [(bangExtract, .dir .nil)]

/-- The copy whitelist of `extract` (video/subtitle container types). -/
def extract_extension_copy_whitelist : List JStr :=
  [".avi".toList, ".ts".toList, ".mkv".toList, ".mp4".toList, ".m4v".toList,
   ".wmv".toList, ".srt".toList, ".idx".toList, ".sub".toList]

/-- Function `should_copy_one` of the source: lower-cased extension in the copy
whitelist. -/
def should_copy_one (filename : JStr) : Bool :=
  extract_extension_copy_whitelist.contains (jsToLower (extname filename))

/-- The archive whitelist of `extract` (currently only `.rar`). -/
def extract_extension_archive_whitelist : List JStr := [".rar".toList]

/-- Function `should_extract_one` of the source: lower-cased extension in the archive
whitelist. -/
def should_extract_one (filename : JStr) : Bool :=
  extract_extension_archive_whitelist.contains (jsToLower (extname filename))

/-- The recursive `fs.cpSync` pass of `extract` with its filter: directories
always descend; a file matching the archive whitelist is queued for
extraction; files matching the copy whitelist are copied; all other files are
skipped.  Returns the copies performed and the queued archives, in traversal
order.  (The copies happen inside `cpSync` itself, with no dry-run check.) -/
def cp_walk : FSEntries → FPath → FPath → List (FPath × FPath) × List FPath
  | .nil, _, _ => ([], [])
  | .cons n t rest, srcp, dstp =>
    let tail := cp_walk rest srcp dstp
    match t with
    | .dir cs =>
      let child := cp_walk cs (srcp ++ [n]) (dstp ++ [n])
      (child.1 ++ tail.1, child.2 ++ tail.2)
    | .file =>
      ((if should_copy_one n then [(srcp ++ [n], dstp ++ [n])] else []) ++ tail.1,
       (if should_extract_one n then [srcp ++ [n]] else []) ++ tail.2)

/-- The filesystem-mutating operations of one `extract` run: directories
created, file copies performed, archives actually extracted. -/
structure ExFx where
  mkdirs : List FPath
  copies : List (FPath × FPath)
  rar_extractions : List FPath
deriving DecidableEq

/-- The effects of `extract(content_path, save_path, rar)` over a content
tree: the destination folder `{save}/!extract/{basename}` is created
unconditionally; a single-file content goes through `copy_file`, which honors
dry-run, and only if whitelisted; a directory content is copied through
`cpSync`, which performs its copies with no dry-run check, after which each
queued `.rar` is extracted through `spawn`, which returns before executing
when dry-run is set. -/
def extract_fx (dryrun : Bool) (content : FSTree) (content_path save_path : FPath) :
    ExFx :=
  let filename := pathBase content_path
  let dest_path := save_path ++ [bangExtract, filename]
  match content with
  | .file =>
    { mkdirs := [dest_path],
      copies :=
        if should_copy_one filename then
          if dryrun then [] else [(content_path, dest_path ++ [filename])]
        else [],
      rar_extractions := [] }
  | .dir cs =>
    let walk := cp_walk cs content_path dest_path
    { mkdirs := [dest_path],
      copies := walk.1,
      rar_extractions := if dryrun then [] else walk.2 }

/-! ## Theorems -/

theorem walk_dir_false_eq :
    ∀ (es : FSEntries) (p : FPath) (sd : Bool),
      walk_dir es p sd false = (level1_files es p sd, level1_dirs es p sd)
  | .nil, _, _ => rfl
  | .cons n t rest, p, sd => by
    have ih := walk_dir_false_eq rest p sd
    cases hs : jsStartsWith ['.'] n <;> cases sd <;> cases t <;>
      simp [walk_dir, level1_files, level1_dirs, FSEntries.toList,
        List.filterMap_cons, hs, ih]

theorem walk_dir_true_eq :
    ∀ (es : FSEntries) (p : FPath) (sd : Bool),
      walk_dir es p sd true = (spec_preorder_files es p sd, spec_preorder_dirs es p sd)
  | .nil, _, _ => rfl
  | .cons n t rest, p, sd => by
    have ih := walk_dir_true_eq rest p sd
    cases t with
    | file =>
      cases hs : jsStartsWith ['.'] n <;> cases sd <;>
        simp [walk_dir, spec_preorder_files, spec_preorder_dirs, ih, hs]
    | dir cs =>
      have ihc := walk_dir_true_eq cs (p ++ [n]) sd
      cases hs : jsStartsWith ['.'] n <;> cases sd <;>
        simp [walk_dir, spec_preorder_files, spec_preorder_dirs, ih, ihc, hs]

/-- C1: over a readable root, `get_files` with `recurse=false` returns exactly
the non-skipped first-level file and directory entries in listing order, and
with `recurse=true` returns every file and directory at every depth, merged in
depth-first pre-order (each parent's descendants at the parent's listing
position, each directory before its own descendants), with the dotfile-skip
policy applied at every level of the descent. -/
theorem C1_walker_levels (es : FSEntries) (p : FPath) (sd : Bool) :
    get_files (.dir es) p sd false = some (level1_files es p sd, level1_dirs es p sd)
    ∧ get_files (.dir es) p sd true
        = some (spec_preorder_files es p sd, spec_preorder_dirs es p sd) := by
  constructor
  · simp [get_files, walk_dir_false_eq]
  · simp [get_files, walk_dir_true_eq]

/-! ## Per-item error-continuation policy (`rename_by_file_order` loop, `main`) -/

/-- C2: in a run over an enumerated sequence with exactly one failing item,
`continue_on_error=false` (`force` unset) attempts the items up to and
including the failing one and halts — no later item is attempted — while
`continue_on_error=true` logs the failure and still attempts every remaining
item, the loop completing normally with the partial result as final. -/
theorem C2_continue_on_error (fails : FPath → Bool) (l1 l2 : List FPath) (x : FPath)
    (h1 : ∀ y ∈ l1, fails y = false) (hx : fails x = true)
    (h2 : ∀ y ∈ l2, fails y = false) :
    rename_loop false fails (l1 ++ x :: l2) = (l1 ++ [x], [x], false)
    ∧ rename_loop true fails (l1 ++ x :: l2) = (l1 ++ x :: l2, [x], true) := by
  induction l1 with
  | nil =>
    constructor
    · simp [rename_loop, hx]
    · have : ∀ l : List FPath, (∀ y ∈ l, fails y = false) →
          rename_loop true fails l = (l, [], true) := by
        intro l hl
        induction l with
        | nil => rfl
        | cons a as ihl =>
          have ha := hl a (by simp)
          simp [rename_loop, ha, ihl (fun y hy => hl y (by simp [hy]))]
      simp [rename_loop, hx, this l2 h2]
  | cons a as ih =>
    have ha := h1 a (by simp)
    have ih' := ih (fun y hy => h1 y (by simp [hy]))
    constructor
    · simp [rename_loop, ha, ih'.1]
    · simp [rename_loop, ha, ih'.2]

/-- Witness for C2 at the spec's scenario: five items with the middle one
failing. -/
theorem C2_continue_on_error_witness :
    rename_loop false (fun p => p = [['x']])
        [[['a']], [['b']], [['x']], [['d']], [['e']]]
      = ([[['a']], [['b']], [['x']]], [[['x']]], false)
    ∧ rename_loop true (fun p => p = [['x']])
        [[['a']], [['b']], [['x']], [['d']], [['e']]]
      = ([[['a']], [['b']], [['x']], [['d']], [['e']]], [[['x']]], true) := by
  have h := C2_continue_on_error (fun p => decide (p = [['x']]))
    [[['a']], [['b']]] [[['d']], [['e']]] [['x']]
    (by decide) (by decide) (by decide)
  simpa using h

/-! ## File-operation executor effects and the reorder-and-rename workflow -/

theorem rbfo_fx_go_dryrun (dest_dir : FPath) (season : Nat) (pre : JStr)
    (tv copyMode : Bool) :
    ∀ (files : List FPath) (idx : Nat),
      rbfo_fx_go dest_dir season pre tv copyMode true idx files
        = ⟨planned_pairs dest_dir season pre tv idx files, [], []⟩
  | [], _ => rfl
  | f :: rest, idx => by
    have ih := rbfo_fx_go_dryrun dest_dir season pre tv copyMode rest (idx + 1)
    cases copyMode <;>
      simp [rbfo_fx_go, planned_pairs, rename_fx, copy_file_fx, Fx.append, ih]

/-- C4: a reorder-and-rename run with dry-run enabled logs the
`src => dest` line for every planned pair (and nothing else) but performs no
move and no copy, so the set of existing paths afterwards is exactly the set
before — no source moved, nothing new at any computed destination. -/
theorem C4_dryrun_frame (files : List FPath) (dest_dir : FPath)
    (season offset : Nat) (pre : JStr) (tv copyMode : Bool) :
    (rename_by_file_order_fx files dest_dir season offset pre tv copyMode true).logs
        = planned_pairs dest_dir season pre tv offset files
    ∧ (rename_by_file_order_fx files dest_dir season offset pre tv copyMode true).moves = []
    ∧ (rename_by_file_order_fx files dest_dir season offset pre tv copyMode true).copies = []
    ∧ ∀ e : FPath → Bool,
        apply_fx (rename_by_file_order_fx files dest_dir season offset pre tv copyMode true) e
          = e := by
  have h := rbfo_fx_go_dryrun dest_dir season pre tv copyMode files offset
  refine ⟨?_, ?_, ?_, ?_⟩ <;> simp [rename_by_file_order_fx, h, apply_fx]

/-! ## Substitution naming policy (`remove` workflow) -/

theorem isPrefixOf_self_append : ∀ (a b : JStr), List.isPrefixOf a (a ++ b) = true
  | [], _ => by simp
  | c :: a', b => by simp [List.isPrefixOf, isPrefixOf_self_append a' b]

theorem replaceFirst_of_isPrefixOf (pat repl s : JStr)
    (h : List.isPrefixOf pat s = true) :
    replaceFirst pat repl s = repl ++ s.drop pat.length := by
  cases s <;> simp [replaceFirst, h]

theorem replaceFirst_self_append (pat repl b : JStr) :
    replaceFirst pat repl (pat ++ b) = repl ++ b := by
  rw [replaceFirst_of_isPrefixOf pat repl (pat ++ b) (isPrefixOf_self_append pat b)]
  simp

/-- Lemma: `replaceFirst` really rewrites the first occurrence: if `pat` occurs at
position `a.length` and at no earlier position, exactly that occurrence is
replaced. -/
theorem replaceFirst_first_occurrence :
    ∀ (a pat repl b : JStr),
      (∀ i, i < a.length → List.isPrefixOf pat ((a ++ pat ++ b).drop i) = false) →
      replaceFirst pat repl (a ++ pat ++ b) = a ++ repl ++ b
  | [], pat, repl, b, _ => by simpa using replaceFirst_self_append pat repl b
  | c :: a', pat, repl, b, h => by
    have h0 : List.isPrefixOf pat (c :: (a' ++ pat ++ b)) = false := by
      simpa using h 0 (by simp)
    have ih := replaceFirst_first_occurrence a' pat repl b
      (fun i hi => by simpa using h (i + 1) (by simpa using hi))
    have ih' : replaceFirst pat repl (a' ++ (pat ++ b)) = a' ++ (repl ++ b) := by
      simpa using ih
    simp only [List.cons_append]
    simp only [replaceFirst]
    rw [h0]
    simp [ih']

/-- C5: when the original starts with the prefix, `substituted_name` replaces
that (first) occurrence of the prefix with the replacement, and independently
— on the already-rewritten name — removes the first occurrence of the suffix
whenever the original contains the suffix, both transforms applying to the
same name; the removal function really targets the first occurrence, and the
spec's two concrete examples hold. -/
theorem C5_substituted_name
    (pre rest repl suf : JStr) (hsuf : jsIncludes suf (pre ++ rest) = true)
    (a pat r b : JStr)
    (hfirst : ∀ i, i < a.length → List.isPrefixOf pat ((a ++ pat ++ b).drop i) = false) :
    substituted_name (pre ++ rest) pre repl suf = replaceFirst suf [] (repl ++ rest)
    ∧ (jsIncludes suf (pre ++ rest) = false →
        substituted_name (pre ++ rest) pre repl suf = repl ++ rest)
    ∧ replaceFirst pat r (a ++ pat ++ b) = a ++ r ++ b
    ∧ substituted_name "FOO_clip.mp4".toList "FOO_".toList [] [] = "clip.mp4".toList
    ∧ substituted_name "show.suffix.mkv".toList [] [] ".suffix".toList
        = "show.mkv".toList := by
  refine ⟨?_, ?_, replaceFirst_first_occurrence a pat r b hfirst, by decide, by decide⟩
  · simp [substituted_name, jsStartsWith, isPrefixOf_self_append, hsuf,
      replaceFirst_self_append]
  · intro hno
    rw [hsuf] at hno
    exact absurd hno (by simp)

/-- Witness for C5 at a concrete input. -/
theorem C5_substituted_name_witness :
    jsIncludes ".mp4".toList ("FOO_".toList ++ "clip.mp4".toList) = true
    ∧ (∀ i, i < ("cl".toList).length →
        List.isPrefixOf "ip".toList (("cl".toList ++ "ip".toList ++ ".mp4".toList).drop i)
          = false)
    ∧ substituted_name ("FOO_".toList ++ "clip.mp4".toList) "FOO_".toList [] ".mp4".toList
        = replaceFirst ".mp4".toList [] ([] ++ "clip.mp4".toList) :=
  ⟨by decide, by decide,
    (C5_substituted_name "FOO_".toList "clip.mp4".toList [] ".mp4".toList (by decide)
      "cl".toList "ip".toList "X".toList ".mp4".toList (by decide)).1⟩

/-- C6 counterexample: the substitution-rename workflow is NOT idempotent.
Over the single file `FOO_FOO_clip.mp4` with prefix `FOO_` and empty
replacement, the first run produces `FOO_clip.mp4`; a second run over that
produced set plans a further rename (to `clip.mp4`) instead of zero renames. -/
theorem C6_not_idempotent_counterexample :
    remove_plan
        (remove_result [("FOO_FOO_clip.mp4".toList, FSTree.file)] "FOO_".toList [] [])
        "FOO_".toList [] []
      = [("FOO_clip.mp4".toList, "clip.mp4".toList)]
    ∧ remove_plan
        (remove_result [("FOO_FOO_clip.mp4".toList, FSTree.file)] "FOO_".toList [] [])
        "FOO_".toList [] [] ≠ [] := by
  constructor <;> decide

/-- C6 (amended): a file whose `substituted_name` equals its current name is
excluded from the rename plan — a no-op, not an error; and a run performs
zero renames precisely when every file name in the set is a fixed point of
`substituted_name`.  (The unconditional idempotence the claim states fails:
see the counterexample, where a produced name again starts with the prefix.) -/
theorem C6_noop_exclusion :
    (∀ (entries : List (JStr × FSTree)) (pre repl suf f : JStr) (t : FSTree),
      (f, t) ∈ entries → substituted_name f pre repl suf = f →
      ∀ d, (f, d) ∉ remove_plan entries pre repl suf)
    ∧ (∀ (entries : List (JStr × FSTree)) (pre repl suf : JStr),
        remove_plan entries pre repl suf = []
        ↔ ∀ e ∈ entries, e.2 = FSTree.file → substituted_name e.1 pre repl suf = e.1) := by
  constructor
  · intro entries pre repl suf f t _ heq d hplan
    simp only [remove_plan, List.mem_filterMap] at hplan
    obtain ⟨⟨n, k⟩, _, hsome⟩ := hplan
    cases k with
    | dir cs => simp at hsome
    | file =>
      by_cases hn : substituted_name n pre repl suf = n
      · simp [hn] at hsome
      · simp only [hn, if_false] at hsome
        have h1 : n = f ∧ substituted_name n pre repl suf = d := by simpa using hsome
        exact hn (by rw [h1.1]; exact heq)
  · intro entries pre repl suf
    rw [remove_plan, List.filterMap_eq_nil_iff]
    constructor
    · intro hall e he hef
      have := hall e he
      rw [hef] at this
      simp only at this
      by_cases hn : substituted_name e.1 pre repl suf = e.1
      · exact hn
      · simp [hn] at this
    · intro hall e he
      cases e with
      | mk n k =>
        cases k with
        | dir cs => simp
        | file => simp [hall (n, FSTree.file) he rfl]

/-- Witness for C6 (amended) at a concrete input: over a name the
substitution leaves unchanged, the run plans zero renames. -/
theorem C6_noop_exclusion_witness :
    remove_plan [("clip.mp4".toList, FSTree.file)] "FOO_".toList [] [] = [] :=
  (C6_noop_exclusion.2 [("clip.mp4".toList, FSTree.file)] "FOO_".toList [] []).mpr
    (by decide)

/-! ## Extension handling of reorder-and-rename (C7, C8) -/

/-- C7 counterexample: the destination name does NOT end with the source
file's extension taken verbatim — `rename_by_file_order` lower-cases the
extension before building the name, so `CLIP.MKV` is renamed to
`S01E01.mkv`, which does not end with `.MKV`. -/
theorem C7_counterexample :
    rbfo_dest_name 1 1 [] true ["CLIP.MKV".toList] = "S01E01.mkv".toList
    ∧ extname (pathBase ["CLIP.MKV".toList]) = ".MKV".toList
    ∧ List.isSuffixOf ".MKV".toList (rbfo_dest_name 1 1 [] true ["CLIP.MKV".toList])
        = false := by
  refine ⟨by decide, by decide, by decide⟩

/-- C7 (amended): the destination filename ends with the LOWER-CASED form of
the source file's extension, including its leading dot — the caller
lower-cases the extension and passes that into the name — while
`get_ordered_filename` itself appends its extension argument verbatim,
preserving whatever case it is passed. -/
theorem C7_extension_lowercased (s i : Nat) (pre : JStr) (tv : Bool) (f : FPath)
    (ext : JStr) :
    (∃ base, rbfo_dest_name s i pre tv f = base ++ jsToLower (extname (pathBase f)))
    ∧ (∃ base, get_ordered_filename s i pre tv ext = base ++ ext) := by
  have h : ∀ e : JStr, ∃ base, get_ordered_filename s i pre tv e = base ++ e := by
    intro e
    cases tv with
    | true =>
      exact ⟨['S'] ++ pad2 s ++ ['E'] ++ pad2 i, by
        simp [get_ordered_filename, get_season_episode_for_file_index]⟩
    | false =>
      exact ⟨pre ++ pad4 i, by
        simp [get_ordered_filename, get_simple_filename_index]⟩
  exact ⟨h (jsToLower (extname (pathBase f))), h ext⟩

theorem natCharsAux_fuel : ∀ (f1 f2 n : Nat), n < f1 → n < f2 →
    natCharsAux f1 n = natCharsAux f2 n
  | 0, _, n, h1, _ => absurd h1 (Nat.not_lt_zero n)
  | _ + 1, 0, n, _, h2 => absurd h2 (Nat.not_lt_zero n)
  | f1 + 1, f2 + 1, n, h1, h2 => by
    simp only [natCharsAux]
    by_cases h : n < 10
    · simp [h]
    · have hn : 10 ≤ n := Nat.le_of_not_lt h
      rw [natCharsAux_fuel f1 f2 (n / 10) (by omega) (by omega)]

theorem natChars_lt10 {n : Nat} (h : n < 10) : natChars n = [Nat.digitChar n] := by
  simp [natChars, natCharsAux, h]

theorem natChars_ge10 {n : Nat} (h : 10 ≤ n) :
    natChars n = natChars (n / 10) ++ [Nat.digitChar (n % 10)] := by
  have h1 : natCharsAux (n + 1) n
      = natCharsAux n (n / 10) ++ [Nat.digitChar (n % 10)] := by
    simp [natCharsAux, Nat.not_lt_of_le h]
  rw [natChars, h1, natCharsAux_fuel n (n / 10 + 1) (n / 10) (by omega) (by omega)]
  rfl

theorem natChars_length_pos (n : Nat) : 1 ≤ (natChars n).length := by
  by_cases h : n < 10
  · simp [natChars_lt10 h]
  · simp [natChars_ge10 (Nat.le_of_not_lt h)]

theorem natChars_length_one {n : Nat} (h : n < 10) : (natChars n).length = 1 := by
  simp [natChars_lt10 h]

theorem natChars_length_two {n : Nat} (h1 : 10 ≤ n) (h2 : n < 100) :
    (natChars n).length = 2 := by
  rw [natChars_ge10 h1]
  simp [natChars_length_one (show n / 10 < 10 by omega)]

theorem natChars_length_three {n : Nat} (h1 : 100 ≤ n) (h2 : n < 1000) :
    (natChars n).length = 3 := by
  rw [natChars_ge10 (by omega)]
  simp [natChars_length_two (show 10 ≤ n / 10 by omega) (show n / 10 < 100 by omega)]

theorem natChars_length_ge : ∀ (k n : Nat), 10 ^ k ≤ n → k + 1 ≤ (natChars n).length
  | 0, n, _ => natChars_length_pos n
  | k + 1, n, h => by
    have hp : (10 : Nat) ≤ 10 ^ (k + 1) := by
      calc (10 : Nat) = 10 ^ 1 := (pow_one 10).symm
        _ ≤ 10 ^ (k + 1) := Nat.pow_le_pow_right (by omega) (by omega)
    have h10 : 10 ≤ n := le_trans hp h
    have hdiv : 10 ^ k ≤ n / 10 := by
      rw [Nat.le_div_iff_mul_le (by omega)]
      calc 10 ^ k * 10 = 10 ^ (k + 1) := (pow_succ 10 k).symm
        _ ≤ n := h
    have ih := natChars_length_ge k (n / 10) hdiv
    rw [natChars_ge10 h10]
    simpa using Nat.succ_le_succ ih

theorem pad2_eq_zeroPad {n : Nat} (h : n < 100) : pad2 n = zeroPad 2 n := by
  by_cases h1 : n < 10
  · simp [pad2, zeroPad, h1, natChars_length_one h1, List.replicate]
  · simp [pad2, zeroPad, h1, natChars_length_two (Nat.le_of_not_lt h1) h]

theorem pad2_eq_natChars {n : Nat} (h : 10 ≤ n) : pad2 n = natChars n := by
  simp [pad2, Nat.not_lt_of_le h]

theorem pad4_eq_zeroPad (n : Nat) : pad4 n = zeroPad 4 n := by
  by_cases h1 : n < 10
  · simp [pad4, zeroPad, h1, natChars_length_one h1, List.replicate]
  · by_cases h2 : n < 100
    · simp [pad4, zeroPad, h1, h2, natChars_length_two (by omega) h2, List.replicate]
    · by_cases h3 : n < 1000
      · simp [pad4, zeroPad, h1, h2, h3, natChars_length_three (by omega) h3,
          List.replicate]
      · have h4 : 4 ≤ (natChars n).length := natChars_length_ge 3 n (by omega)
        simp [pad4, zeroPad, h1, h2, h3, Nat.sub_eq_zero_of_le h4]

theorem zeroPad_two_length {n : Nat} (h : n < 100) : (zeroPad 2 n).length = 2 := by
  by_cases h1 : n < 10
  · simp [zeroPad, natChars_length_one h1]
  · simp [zeroPad, natChars_length_two (Nat.le_of_not_lt h1) h]

/-- C8: for indices and seasons in `[1,99]`, TV-mode `get_ordered_filename`
is `S` + season zero-padded to exactly width 2 + `E` + index zero-padded to
exactly width 2 + the extension; non-TV mode is prefix + index zero-padded to
width 4 + extension; and past the field width the numeric field is the full
decimal rendering — wider, never truncated or re-padded. -/
theorem C8_ordered_name_padding (pre ext : JStr) :
    (∀ s i : Nat, 1 ≤ s → s ≤ 99 → 1 ≤ i → i ≤ 99 →
      get_ordered_filename s i pre true ".mkv".toList
          = ['S'] ++ zeroPad 2 s ++ ['E'] ++ zeroPad 2 i ++ ".mkv".toList
        ∧ (zeroPad 2 s).length = 2 ∧ (zeroPad 2 i).length = 2)
    ∧ (∀ s i : Nat, get_ordered_filename s i pre false ext = pre ++ zeroPad 4 i ++ ext)
    ∧ (∀ n : Nat, 100 ≤ n → pad2 n = natChars n ∧ 3 ≤ (natChars n).length)
    ∧ (∀ s i : Nat, 10000 ≤ i →
        get_ordered_filename s i pre false ext = pre ++ natChars i ++ ext
          ∧ 5 ≤ (natChars i).length) := by
  refine ⟨?_, ?_, ?_, ?_⟩
  · intro s i _ hs2 _ hi2
    refine ⟨?_, zeroPad_two_length (by omega), zeroPad_two_length (by omega)⟩
    simp [get_ordered_filename, get_season_episode_for_file_index,
      pad2_eq_zeroPad (show s < 100 by omega), pad2_eq_zeroPad (show i < 100 by omega)]
  · intro s i
    simp [get_ordered_filename, get_simple_filename_index, pad4_eq_zeroPad]
  · intro n hn
    exact ⟨pad2_eq_natChars (by omega), natChars_length_ge 2 n (by omega)⟩
  · intro s i hi
    constructor
    · have h4 : 4 ≤ (natChars i).length := natChars_length_ge 3 i (by omega)
      simp [get_ordered_filename, get_simple_filename_index, pad4_eq_zeroPad, zeroPad,
        Nat.sub_eq_zero_of_le h4]
    · exact natChars_length_ge 4 i (by omega)

/-- Witness for C8 at concrete values (in-range TV naming, overflow of the
two- and four-digit fields). -/
theorem C8_ordered_name_padding_witness :
    get_ordered_filename 3 7 [] true ".mkv".toList
        = ['S'] ++ zeroPad 2 3 ++ ['E'] ++ zeroPad 2 7 ++ ".mkv".toList
    ∧ pad2 123 = natChars 123
    ∧ get_ordered_filename 1 12345 "img".toList false ".jpg".toList
        = "img".toList ++ natChars 12345 ++ ".jpg".toList :=
  ⟨((C8_ordered_name_padding [] ".mkv".toList).1 3 7 (by decide) (by decide) (by decide)
      (by decide)).1,
    ((C8_ordered_name_padding [] [] ).2.2.1 123 (by decide)).1,
    ((C8_ordered_name_padding "img".toList ".jpg".toList).2.2.2 1 12345 (by decide)).1⟩

/-! ## Reconciliation of an incoming folder (`check_incoming`) -/

theorem check_one_eq (root : FSTree) (bn : JStr) (c : Nat) (ep : FPath)
    (sd rc : Bool) :
    check_one_extract_folder root bn c ep sd rc
      = match resolve (ep ++ [bn]) root with
        | none => .pushMissing
        | some _ =>
          match file_count root (ep ++ [bn]) sd rc with
          | none => .err
          | some k => if c + 1 ≠ k then .pushMismatch else .noPush := rfl

theorem file_count_eq_none (root : FSTree) (p : FPath) (sd rc : Bool)
    (h : resolve p root = none) : file_count root p sd rc = none := by
  simp [file_count, h]

theorem check_one_missing_iff (root : FSTree) (bn : JStr) (c : Nat) (ep : FPath)
    (sd rc : Bool) :
    check_one_extract_folder root bn c ep sd rc = .pushMissing
      ↔ resolve (ep ++ [bn]) root = none := by
  rw [check_one_eq]
  cases hres : resolve (ep ++ [bn]) root with
  | none => simp
  | some t =>
    cases hfc : file_count root (ep ++ [bn]) sd rc with
    | none => simp [hfc]
    | some k => by_cases hk : c + 1 = k <;> simp [hfc, hk]

theorem check_one_mismatch_iff (root : FSTree) (bn : JStr) (c : Nat) (ep : FPath)
    (sd rc : Bool) (hne : check_one_extract_folder root bn c ep sd rc ≠ .err) :
    check_one_extract_folder root bn c ep sd rc = .pushMismatch
      ↔ ∃ k, file_count root (ep ++ [bn]) sd rc = some k ∧ c + 1 ≠ k := by
  rw [check_one_eq] at hne ⊢
  cases hres : resolve (ep ++ [bn]) root with
  | none =>
    rw [file_count_eq_none root (ep ++ [bn]) sd rc hres]
    simp
  | some t =>
    cases hfc : file_count root (ep ++ [bn]) sd rc with
    | none => rw [hres, hfc] at hne; simp at hne
    | some k => by_cases hk : c + 1 = k <;> simp [hfc, hk]

theorem check_loop_eq (outcome : FPath → CheckOutcome) (force : Bool) :
    ∀ l : List FPath, (∀ p ∈ l, outcome p ≠ .err) →
      check_loop outcome force l
        = some
            (l.filterMap (fun p =>
              if outcome p = .pushMissing then some (pathBase p) else none),
             l.filterMap (fun p =>
              if outcome p = .pushMismatch then some (pathBase p) else none))
  | [], _ => rfl
  | p :: rest, h => by
    have hp := h p (by simp)
    have ih := check_loop_eq outcome force rest (fun q hq => h q (by simp [hq]))
    cases ho : outcome p with
    | err => exact absurd ho hp
    | pushMissing => simp [check_loop, ho, ih]
    | pushMismatch => simp [check_loop, ho, ih]
    | noPush => simp [check_loop, ho, ih]

theorem nodup_keys_eq {l : List (JStr × FSTree)} (hnd : (l.map Prod.fst).Nodup) :
    ∀ {a b : JStr × FSTree}, a ∈ l → b ∈ l → a.1 = b.1 → a = b := by
  induction l with
  | nil => intro a b ha _ _; cases ha
  | cons x xs ih =>
    intro a b ha hb hab
    have hx : x.1 ∉ xs.map Prod.fst := (List.nodup_cons.mp hnd).1
    have hxs : (xs.map Prod.fst).Nodup := (List.nodup_cons.mp hnd).2
    rcases List.mem_cons.mp ha with rfl | ha'
    · rcases List.mem_cons.mp hb with rfl | hb'
      · rfl
      · exact absurd (hab ▸ List.mem_map_of_mem Prod.fst hb') hx
    · rcases List.mem_cons.mp hb with rfl | hb'
      · exact absurd (hab ▸ List.mem_map_of_mem Prod.fst ha') hx
      · exact ih hxs ha' hb' hab

theorem mem_filterMap_keys {l : List (JStr × FSTree)} (hnd : (l.map Prod.fst).Nodup)
    (f : (JStr × FSTree) → Option JStr)
    (hf : ∀ e y, f e = some y → y = e.1)
    {n : JStr} {t : FSTree} (hmem : (n, t) ∈ l) :
    (n ∈ l.filterMap f) ↔ f (n, t) = some n := by
  rw [List.mem_filterMap]
  constructor
  · rintro ⟨e, he, hfe⟩
    have h1 : n = e.1 := hf e n hfe
    have h2 : e = (n, t) := nodup_keys_eq hnd he hmem h1.symm
    rw [h2] at hfe; exact hfe
  · intro h
    exact ⟨(n, t), hmem, h⟩

theorem lookupEntry_of_mem_nodup :
    ∀ (es : FSEntries), (es.toList.map Prod.fst).Nodup →
      ∀ {n : JStr} {t : FSTree}, (n, t) ∈ es.toList → lookupEntry n es = some t
  | .nil, _, _, _, h => by cases h
  | .cons m u rest, hnd, n, t, h => by
    have hnd' : (m :: rest.toList.map Prod.fst).Nodup := hnd
    have hx : m ∉ rest.toList.map Prod.fst := (List.nodup_cons.mp hnd').1
    have hxs : (rest.toList.map Prod.fst).Nodup := (List.nodup_cons.mp hnd').2
    have hm : (n, t) ∈ (m, u) :: rest.toList := h
    rcases List.mem_cons.mp hm with heq | h'
    · have h1 : n = m := congrArg Prod.fst heq
      have h2 : t = u := congrArg Prod.snd heq
      subst h1; subst h2
      simp [lookupEntry]
    · have hne : m ≠ n := by
        intro hmn
        exact hx (hmn ▸ List.mem_map_of_mem Prod.fst h')
      rw [lookupEntry, if_neg hne]
      exact lookupEntry_of_mem_nodup rest hxs h'

theorem entry_push_some (es : FSEntries) (sd b : Bool) (tg : CheckOutcome) :
    ∀ e y, entry_push es sd b tg e = some y → y = e.1 := by
  intro e y h
  rcases e with ⟨a, u⟩
  by_cases hsk : (jsStartsWith ['.'] a && sd) = true
  · simp [entry_push, hsk] at h
  · cases u with
    | file =>
      cases b with
      | true => simp [entry_push, hsk] at h
      | false =>
        by_cases ho : file_outcome (.dir es) sd false [bangExtract] [a] = tg
        · simp [entry_push, hsk, ho] at h; exact h.symm
        · simp [entry_push, hsk, ho] at h
    | dir cs =>
      cases b with
      | false => simp [entry_push, hsk] at h
      | true =>
        by_cases ho : dir_outcome (.dir es) sd false [bangExtract] [a] = tg
        · simp [entry_push, hsk, ho] at h; exact h.symm
        · simp [entry_push, hsk, ho] at h

theorem dirs_filterMap_eq (es : FSEntries) (sd : Bool) (tg : CheckOutcome) :
    (level1_dirs es [] sd).filterMap (fun p =>
        if dir_outcome (.dir es) sd false [bangExtract] p = tg then some (pathBase p)
        else none)
      = es.toList.filterMap (entry_push es sd true tg) := by
  rw [level1_dirs, List.filterMap_filterMap]
  refine congrArg (fun f => List.filterMap f es.toList) (funext fun e => ?_)
  rcases e with ⟨a, u⟩
  by_cases hsk : (jsStartsWith ['.'] a && sd) = true
  · simp [entry_push, hsk]
  · cases u with
    | file => simp [entry_push, hsk]
    | dir cs =>
      by_cases ho : dir_outcome (.dir es) sd false [bangExtract] [a] = tg <;>
        simp [entry_push, hsk, ho, pathBase]

theorem files_filterMap_eq (es : FSEntries) (sd : Bool) (tg : CheckOutcome) :
    (level1_files es [] sd).filterMap (fun p =>
        if file_outcome (.dir es) sd false [bangExtract] p = tg then some (pathBase p)
        else none)
      = es.toList.filterMap (entry_push es sd false tg) := by
  rw [level1_files, List.filterMap_filterMap]
  refine congrArg (fun f => List.filterMap f es.toList) (funext fun e => ?_)
  rcases e with ⟨a, u⟩
  by_cases hsk : (jsStartsWith ['.'] a && sd) = true
  · simp [entry_push, hsk]
  · cases u with
    | dir cs => simp [entry_push, hsk]
    | file =>
      by_cases ho : file_outcome (.dir es) sd false [bangExtract] [a] = tg <;>
        simp [entry_push, hsk, ho, pathBase]

theorem check_incoming_char (es : FSEntries) (sd force : Bool)
    (hnd : (es.toList.map Prod.fst).Nodup)
    (hok_d : ∀ p ∈ level1_dirs es [] sd,
      dir_outcome (.dir es) sd false [bangExtract] p ≠ .err)
    (hok_f : ∀ p ∈ level1_files es [] sd,
      file_outcome (.dir es) sd false [bangExtract] p ≠ .err) :
    check_incoming (.dir es) sd false force
      = some
          (es.toList.filterMap (entry_push es sd true .pushMissing)
            ++ es.toList.filterMap (entry_push es sd false .pushMissing),
           es.toList.filterMap (entry_push es sd true .pushMismatch)
            ++ es.toList.filterMap (entry_push es sd false .pushMismatch))
      ∧ ∀ (n : JStr) (t : FSTree), (n, t) ∈ es.toList →
          (jsStartsWith ['.'] n && sd) = false →
          ((n ∈ es.toList.filterMap (entry_push es sd true .pushMissing)
              ++ es.toList.filterMap (entry_push es sd false .pushMissing)
            ↔ resolve [bangExtract, n] (FSTree.dir es) = none)
           ∧ (n ∈ es.toList.filterMap (entry_push es sd true .pushMismatch)
              ++ es.toList.filterMap (entry_push es sd false .pushMismatch)
            ↔ ∃ k, file_count (.dir es) [bangExtract, n] sd false = some k
                ∧ entry_source_count n t sd false + 1 ≠ k)) := by
  have hwalk := walk_dir_false_eq es [] sd
  have hd := check_loop_eq (dir_outcome (.dir es) sd false [bangExtract]) force
    (level1_dirs es [] sd) hok_d
  have hf := check_loop_eq (file_outcome (.dir es) sd false [bangExtract]) force
    (level1_files es [] sd) hok_f
  constructor
  · have heq : check_incoming (.dir es) sd false force
        = match check_loop (dir_outcome (.dir es) sd false [bangExtract]) force
            (walk_dir es [] sd false).2 with
          | none => none
          | some r1 =>
            match check_loop (file_outcome (.dir es) sd false [bangExtract]) force
                (walk_dir es [] sd false).1 with
            | none => none
            | some r2 => some (r1.1 ++ r2.1, r1.2 ++ r2.2) := rfl
    rw [heq, hwalk]
    simp only [hd, hf]
    rw [← dirs_filterMap_eq es sd .pushMissing, ← dirs_filterMap_eq es sd .pushMismatch,
      ← files_filterMap_eq es sd .pushMissing, ← files_filterMap_eq es sd .pushMismatch]
  · intro n t hmem hns
    cases t with
    | dir cs =>
      have hlook : lookupEntry n es = some (.dir cs) :=
        lookupEntry_of_mem_nodup es hnd hmem
      have hres1 : resolve [n] (FSTree.dir es) = some (.dir cs) := by
        simp [resolve, hlook]
      have hfc1 : file_count (.dir es) [n] sd false
          = some (entry_source_count n (.dir cs) sd false) := by
        simp [file_count, hres1, entry_source_count]
      have hdo : dir_outcome (.dir es) sd false [bangExtract] [n]
          = check_one_extract_folder (.dir es) n
              (entry_source_count n (.dir cs) sd false) [bangExtract] sd false := by
        simp [dir_outcome, hfc1, pathBase]
      have hmemd : [n] ∈ level1_dirs es [] sd :=
        List.mem_filterMap.mpr ⟨(n, .dir cs), hmem, by simp [hns]⟩
      have hne := hok_d [n] hmemd
      rw [hdo] at hne
      have hpush_d : ∀ tg, entry_push es sd true tg (n, .dir cs)
          = if dir_outcome (.dir es) sd false [bangExtract] [n] = tg then some n
            else none := by
        intro tg; simp [entry_push, hns]
      have hpush_f : ∀ tg, entry_push es sd false tg (n, .dir cs) = none := by
        intro tg; simp [entry_push, hns]
      constructor
      · rw [List.mem_append,
          mem_filterMap_keys hnd _ (entry_push_some es sd true .pushMissing) hmem,
          mem_filterMap_keys hnd _ (entry_push_some es sd false .pushMissing) hmem,
          hpush_d, hpush_f, hdo]
        have hmiss := check_one_missing_iff (.dir es) n
          (entry_source_count n (.dir cs) sd false) [bangExtract] sd false
        simp only [List.cons_append, List.nil_append] at hmiss
        rw [← hmiss]
        by_cases hc : check_one_extract_folder (.dir es) n
            (entry_source_count n (.dir cs) sd false) [bangExtract] sd false
            = .pushMissing <;> simp [hc]
      · rw [List.mem_append,
          mem_filterMap_keys hnd _ (entry_push_some es sd true .pushMismatch) hmem,
          mem_filterMap_keys hnd _ (entry_push_some es sd false .pushMismatch) hmem,
          hpush_d, hpush_f, hdo]
        have hmism := check_one_mismatch_iff (.dir es) n
          (entry_source_count n (.dir cs) sd false) [bangExtract] sd false hne
        simp only [List.cons_append, List.nil_append] at hmism
        rw [← hmism]
        by_cases hc : check_one_extract_folder (.dir es) n
            (entry_source_count n (.dir cs) sd false) [bangExtract] sd false
            = .pushMismatch <;> simp [hc]
    | file =>
      have hdo : file_outcome (.dir es) sd false [bangExtract] [n]
          = check_one_extract_folder (.dir es) n
              (entry_source_count n .file sd false) [bangExtract] sd false := rfl
      have hmemf : [n] ∈ level1_files es [] sd :=
        List.mem_filterMap.mpr ⟨(n, .file), hmem, by simp [hns]⟩
      have hne := hok_f [n] hmemf
      rw [hdo] at hne
      have hpush_d : ∀ tg, entry_push es sd true tg (n, .file) = none := by
        intro tg; simp [entry_push, hns]
      have hpush_f : ∀ tg, entry_push es sd false tg (n, .file)
          = if file_outcome (.dir es) sd false [bangExtract] [n] = tg then some n
            else none := by
        intro tg; simp [entry_push, hns]
      constructor
      · rw [List.mem_append,
          mem_filterMap_keys hnd _ (entry_push_some es sd true .pushMissing) hmem,
          mem_filterMap_keys hnd _ (entry_push_some es sd false .pushMissing) hmem,
          hpush_d, hpush_f, hdo]
        have hmiss := check_one_missing_iff (.dir es) n
          (entry_source_count n .file sd false) [bangExtract] sd false
        simp only [List.cons_append, List.nil_append] at hmiss
        rw [← hmiss]
        by_cases hc : check_one_extract_folder (.dir es) n
            (entry_source_count n .file sd false) [bangExtract] sd false
            = .pushMissing <;> simp [hc]
      · rw [List.mem_append,
          mem_filterMap_keys hnd _ (entry_push_some es sd true .pushMismatch) hmem,
          mem_filterMap_keys hnd _ (entry_push_some es sd false .pushMismatch) hmem,
          hpush_d, hpush_f, hdo]
        have hmism := check_one_mismatch_iff (.dir es) n
          (entry_source_count n .file sd false) [bangExtract] sd false hne
        simp only [List.cons_append, List.nil_append] at hmism
        rw [← hmism]
        by_cases hc : check_one_extract_folder (.dir es) n
            (entry_source_count n .file sd false) [bangExtract] sd false
            = .pushMismatch <;> simp [hc]

/-- C3: over the entries directly under a readable incoming root (the
default, non-recursive run; directory-listing names are distinct, and no
counterpart of an entry is a plain file, which would throw), the run
completes with a missing list and a content-mismatch list such that for every
non-skipped entry: its basename is in the missing list iff
`{root}/!extract/{basename}` does not exist, and in the content-mismatch list
iff that counterpart exists but its file count differs from the entry's
source count + 1 (source count of a directory entry = number of files found
under it, of a plain file = 1); and a report list is emitted at the end only
if non-empty. -/
theorem C3_reconcile_incoming (es : FSEntries) (sd force : Bool)
    (hnd : (es.toList.map Prod.fst).Nodup)
    (hok_d : ∀ p ∈ level1_dirs es [] sd,
      dir_outcome (.dir es) sd false [bangExtract] p ≠ .err)
    (hok_f : ∀ p ∈ level1_files es [] sd,
      file_outcome (.dir es) sd false [bangExtract] p ≠ .err) :
    ∃ m mm, check_incoming (.dir es) sd false force = some (m, mm)
      ∧ (∀ (n : JStr) (t : FSTree), (n, t) ∈ es.toList →
          (jsStartsWith ['.'] n && sd) = false →
          ((n ∈ m ↔ resolve [bangExtract, n] (FSTree.dir es) = none)
           ∧ (n ∈ mm ↔ ∃ k,
                file_count (.dir es) [bangExtract, n] sd false = some k
                ∧ entry_source_count n t sd false + 1 ≠ k)))
      ∧ (∀ a b : List JStr, (report_lines a b).isEmpty = (a.isEmpty && b.isEmpty)) := by
  obtain ⟨heq, hmem⟩ := check_incoming_char es sd force hnd hok_d hok_f
  refine ⟨_, _, heq, hmem, ?_⟩
  intro a b
  cases a <;> cases b <;> simp [report_lines]

/-- Witness for C3 at the spec's fixture: 3 source files against 4 extracted
files put `Alpha` in neither list (only the `!extract` folder itself, whose
own counterpart is absent, is reported missing). -/
theorem C3_reconcile_incoming_witness :
    ((fixture_incoming.toList.map Prod.fst).Nodup)
    ∧ (∃ m mm, check_incoming (.dir fixture_incoming) true false false = some (m, mm)
        ∧ (∀ (n : JStr) (t : FSTree), (n, t) ∈ fixture_incoming.toList →
            (jsStartsWith ['.'] n && true) = false →
            ((n ∈ m ↔ resolve [bangExtract, n] (FSTree.dir fixture_incoming) = none)
             ∧ (n ∈ mm ↔ ∃ k,
                  file_count (.dir fixture_incoming) [bangExtract, n] true false = some k
                  ∧ entry_source_count n t true false + 1 ≠ k)))
        ∧ (∀ a b : List JStr, (report_lines a b).isEmpty = (a.isEmpty && b.isEmpty)))
    ∧ check_incoming (.dir fixture_incoming) true false false
        = some ([bangExtract], []) :=
  ⟨by decide,
    C3_reconcile_incoming fixture_incoming true false (by decide) (by decide) (by decide),
    by decide⟩

/-- C10: when the incoming root's own listing includes the `!extract` folder,
`check_incoming` reconciles it like any other directory entry — it is looked
up at `{root}/!extract/!extract` — so whenever that nested path does not
exist, `!extract` itself is reported in the missing list. -/
theorem C10_bang_extract_self_check (es cs : FSEntries) (sd force : Bool)
    (hmem : (bangExtract, FSTree.dir cs) ∈ es.toList)
    (hnd : (es.toList.map Prod.fst).Nodup)
    (hok_d : ∀ p ∈ level1_dirs es [] sd,
      dir_outcome (.dir es) sd false [bangExtract] p ≠ .err)
    (hok_f : ∀ p ∈ level1_files es [] sd,
      file_outcome (.dir es) sd false [bangExtract] p ≠ .err)
    (habs : resolve [bangExtract, bangExtract] (FSTree.dir es) = none) :
    ∃ m mm, check_incoming (.dir es) sd false force = some (m, mm)
      ∧ bangExtract ∈ m := by
  obtain ⟨heq, hchar⟩ := check_incoming_char es sd force hnd hok_d hok_f
  refine ⟨_, _, heq, ?_⟩
  have hns : (jsStartsWith ['.'] bangExtract && sd) = false := by
    have h1 : jsStartsWith ['.'] bangExtract = false := by decide
    simp [h1]
  exact ((hchar bangExtract (FSTree.dir cs) hmem hns).1).mpr habs

/-- Witness for C10: with no nested `!extract/!extract`, the `!extract`
folder itself lands in the missing list. -/
theorem C10_bang_extract_self_check_witness :
    ((bangExtract, FSTree.dir FSEntries.nil) ∈ fixture_only_extract.toList)
    ∧ (∃ m mm, check_incoming (.dir fixture_only_extract) true false false
          = some (m, mm)
        ∧ bangExtract ∈ m) :=
  ⟨by decide,
    C10_bang_extract_self_check fixture_only_extract .nil true false (by decide)
      (by decide) (by decide) (by decide) (by decide)⟩

/-! ## The extract workflow (C9) -/

/-- C9 counterexample: extract does NOT perform the same operations under
dry-run.  A whitelisted single file is copied without the flag but not with
it, and a queued `.rar` inside a directory is extracted without the flag but
not with it. -/
theorem C9_dryrun_counterexample :
    extract_fx true .file ["movie.mkv".toList] []
        ≠ extract_fx false .file ["movie.mkv".toList] []
    ∧ (extract_fx true .file ["movie.mkv".toList] []).copies = []
    ∧ (extract_fx false .file ["movie.mkv".toList] []).copies
        = [(["movie.mkv".toList],
            [bangExtract, "movie.mkv".toList, "movie.mkv".toList])]
    ∧ (extract_fx true (.dir (entriesOf [("a.rar".toList, .file)]))
        ["Pack".toList] []).rar_extractions = []
    ∧ (extract_fx false (.dir (entriesOf [("a.rar".toList, .file)]))
        ["Pack".toList] []).rar_extractions
        = [["Pack".toList, "a.rar".toList]] := by
  refine ⟨by decide, by decide, by decide, by decide, by decide⟩

/-- C9 (amended): extract honors dry-run only partially.  Directory creation
is identical with the flag set or unset, and for directory content the
`cpSync` file copies are identical too; but under dry-run no archive is
extracted, and a single-file content is not copied. -/
theorem C9_partial_dryrun (c : FSTree) (cp sp : FPath) :
    (extract_fx true c cp sp).mkdirs = (extract_fx false c cp sp).mkdirs
    ∧ (extract_fx true c cp sp).rar_extractions = []
    ∧ (∀ cs, c = .dir cs →
        (extract_fx true c cp sp).copies = (extract_fx false c cp sp).copies)
    ∧ (c = .file → (extract_fx true c cp sp).copies = []) := by
  cases c with
  | file =>
    refine ⟨rfl, rfl, ?_, ?_⟩
    · intro cs h; cases h
    · intro _
      simp [extract_fx]
  | dir cs =>
    refine ⟨rfl, by simp [extract_fx], ?_, ?_⟩
    · intro cs' _; rfl
    · intro h; cases h

/-- Witness for C9 (amended) at a concrete directory content. -/
theorem C9_partial_dryrun_witness :
    (extract_fx true (.dir (entriesOf [("a.mkv".toList, .file)]))
        ["Pack".toList] []).copies
      = (extract_fx false (.dir (entriesOf [("a.mkv".toList, .file)]))
          ["Pack".toList] []).copies :=
  (C9_partial_dryrun (.dir (entriesOf [("a.mkv".toList, .file)]))
    ["Pack".toList] []).2.2.1 _ rfl

-- sanity examples (claim-independent)
